import Mathlib

/-
Verification of the comment/notification backend in server.js.

The repository ships two variants of the server in one file:
an in-memory/file-backed variant (top half) and a Firestore variant
(bottom half).  Both are modelled here as pure Lean functions over
explicit stores.  JS string ids are modelled as Nat; `parentId: null`
is `Option.none`; JS integer counters that can be decremented below a
clamp are modelled as Int.  Fields a modelled handler never reads or
writes (e.g. `url`, `text`, timestamps) are omitted from the records
when no claim depends on them.
-/

namespace Leyr

/-! ## Mention extraction (server.js `extractMentions`) -/

/-- Word characters of the regex `\w` in `/@(\w+)/g`. -/
def isWordChar (c : Char) : Bool :=
  c.isAlphanum || c == '_'

/-- Scanning loop of `extractMentions`, structurally recursive on a
fuel argument so that it evaluates by kernel reduction; every step
consumes at least one character, so fuel equal to the text length
never runs out. -/
def extractMentionsAux (fuel : Nat) (l : List Char) : List (List Char) :=
  match fuel, l with
  | 0, _ => []
  | _, [] => []
  | fuel + 1, c :: rest =>
    if c = '@' then
      let w := rest.takeWhile isWordChar
      if w.isEmpty then extractMentionsAux fuel rest
      else w :: extractMentionsAux fuel (rest.drop w.length)
    else extractMentionsAux fuel rest

/-- Model of `extractMentions(text)`: scan for `@` followed by one or
more word characters; successive non-overlapping matches, in text
order, handles kept with repetitions (source lines 133-143). -/
def extractMentions (l : List Char) : List (List Char) :=
  extractMentionsAux l.length l

/-! ## Users and mention resolution (file-backed variant) -/

/-- User record; only the fields the mention loop reads. -/
structure JsUser where
  id : Nat
  username : List Char
  deriving DecidableEq, Inhabited

/-- Lowercasing used by `u.username.toLowerCase() === mention.toLowerCase()`. -/
def lowerChars (s : List Char) : List Char :=
  s.map Char.toLower

/-- Model of `users.find(u => u.username.toLowerCase() === mention.toLowerCase())`
(source line 450). -/
def resolveMention (usersL : List JsUser) (m : List Char) : Option JsUser :=
  usersL.find? (fun u => lowerChars u.username == lowerChars m)

/-- Model of the mention loop of POST /api/comments (source lines 448-467):
for each extracted handle, in order, resolve it case-insensitively; if a
user is found and is not the author, push one notification row for that
user.  The list returned is the sequence of recipient user ids of the
notification rows created (one `io.emit` accompanies each row). -/
def mentionRecipients (usersL : List JsUser) (authorId : Nat) (text : List Char) : List Nat :=
  (extractMentions text).foldl
    (fun acc m =>
      match resolveMention usersL m with
      | some u => if u.id != authorId then acc ++ [u.id] else acc
      | none => acc)
    []

/-! ## File-backed comment store -/

/-- Kinds of the `voteType` request field: `'up' | 'down' | 'remove'`. -/
inductive VoteType where
  | up
  | down
  | remove
  deriving DecidableEq, Inhabited

/-- Stored comment of the file-backed variant; vote counters are JS
numbers mutated in place, modelled as Int (creation sets them to 0). -/
structure StoredComment where
  id : Nat
  parentId : Option Nat
  authorId : Nat
  upvotes : Int
  downvotes : Int
  deriving DecidableEq, Inhabited

/-- Error responses of the modelled handlers. -/
inductive ApiErr where
  | notFound
  | forbidden
  deriving DecidableEq, Inhabited

/-- Replace the first element satisfying `p` by its image under `f`
(models mutating the object returned by `Array.prototype.find`). -/
def updateFirst (p : α → Bool) (f : α → α) : List α → List α
  | [] => []
  | x :: xs => if p x then f x :: xs else x :: updateFirst p f xs

/-- Remove the first element satisfying `p` (models
`findIndex` + `splice(idx, 1)` for a present element). -/
def removeFirst (p : α → Bool) : List α → List α
  | [] => []
  | x :: xs => if p x then xs else x :: removeFirst p xs

/-- Mutation applied to the found comment by POST /api/comments/:id/vote
(source lines 494-509): `remove` clamps both counters at zero,
`up`/`down` increment one counter. -/
def applyVoteKind (vt : VoteType) (c : StoredComment) : StoredComment :=
  match vt with
  | .remove => { c with upvotes := max 0 (c.upvotes - 1), downvotes := max 0 (c.downvotes - 1) }
  | .up => { c with upvotes := c.upvotes + 1 }
  | .down => { c with downvotes := c.downvotes + 1 }

/-- Model of POST /api/comments/:id/vote, file-backed variant (source
lines 480-520): look the comment up by id; 404 leaves the store
untouched; otherwise mutate the found comment in place. -/
def fileVote (store : List StoredComment) (cid : Nat) (vt : VoteType) :
    Option ApiErr × List StoredComment :=
  match store.find? (fun c => c.id == cid) with
  | none => (some .notFound, store)
  | some _ => (none, updateFirst (fun c => c.id == cid) (applyVoteKind vt) store)

/-- Model of comment creation state change of POST /api/comments
(source lines 429-443): push a fresh comment with zero counters. -/
def createComment (store : List StoredComment) (cid : Nat) (parentId : Option Nat)
    (authorId : Nat) : List StoredComment :=
  store ++ [{ id := cid, parentId := parentId, authorId := authorId,
              upvotes := 0, downvotes := 0 }]

/-- Store-mutating operations of the file-backed variant that touch
vote state: comment creation and voting (incl. removal). -/
inductive FileOp where
  | create (cid : Nat) (parentId : Option Nat) (authorId : Nat)
  | vote (cid : Nat) (vt : VoteType)
  deriving DecidableEq, Inhabited

/-- One request-step of the file-backed store. -/
def fileStep (store : List StoredComment) : FileOp → List StoredComment
  | .create cid parentId authorId => createComment store cid parentId authorId
  | .vote cid vt => (fileVote store cid vt).2

/-- Model of DELETE /api/comments/:id, file-backed variant (source
lines 565-601): 404 if absent, 403 unless the requester authored it;
otherwise splice out the comment, then splice out each comment whose
`parentId` is the deleted id (direct children only). -/
def deleteCommentFile (store : List StoredComment) (uid cid : Nat) :
    Option ApiErr × List StoredComment :=
  match store.find? (fun c => c.id == cid) with
  | none => (some .notFound, store)
  | some c =>
    if c.authorId != uid then (some .forbidden, store)
    else
      let s1 := removeFirst (fun d => d.id == cid) store
      let replies := s1.filter (fun d => d.parentId == some cid)
      (none, replies.foldl (fun acc r => removeFirst (fun d => d.id == r.id) acc) s1)

/-! ## Pagination (GET /api/comments, source lines 384-407) -/

/-- Pagination metadata returned by GET /api/comments. -/
structure Pagination where
  currentPage : Nat
  totalPages : Nat
  totalComments : Nat
  hasNextPage : Bool
  hasPrevPage : Bool
  deriving DecidableEq, Inhabited

/-- Model of the pagination block: `totalPages = Math.ceil(total/limit)`
(exact over the integer ranges involved, rendered as Nat ceiling
division), `hasNextPage = pageNum < totalPages`,
`hasPrevPage = pageNum > 1`. -/
def paginationOf (totalComments pageNum limitNum : Nat) : Pagination :=
  { currentPage := pageNum
    totalPages := (totalComments + limitNum - 1) / limitNum
    totalComments := totalComments
    hasNextPage := decide (pageNum < (totalComments + limitNum - 1) / limitNum)
    hasPrevPage := decide (pageNum > 1) }

/-! ## Firestore variant: per-user vote rows -/

/-- Vote document of the `votes` collection. -/
structure VoteRow where
  commentId : Nat
  userId : Nat
  kind : VoteType
  deriving DecidableEq, Inhabited

/-- Predicate of the query
`votes.where('commentId','==',id).where('userId','==',uid)`. -/
def voteOf (cid uid : Nat) (r : VoteRow) : Bool :=
  r.commentId == cid && r.userId == uid

/-- Model of `getVotesForComment` (source lines 783-800): count rows of
the comment by kind. -/
def fsTally (votes : List VoteRow) (cid : Nat) : Nat × Nat :=
  ((votes.filter (fun r => r.commentId == cid && r.kind == VoteType.up)).length,
   (votes.filter (fun r => r.commentId == cid && r.kind == VoteType.down)).length)

/-- Model of POST /api/comments/:id/vote, Firestore variant (source
lines 1188-1247): check the comment document exists (404 otherwise,
nothing written); `remove` deletes the first matching row if any;
`up`/`down` update the first matching row in place or append a new
row.  Returns the response disposition and the vote collection after
the request. -/
def fsCastVote (commentIds : List Nat) (votes : List VoteRow) (cid uid : Nat)
    (vt : VoteType) : Option ApiErr × List VoteRow :=
  if commentIds.contains cid then
    match vt with
    | .remove =>
      match votes.find? (voteOf cid uid) with
      | some _ => (none, removeFirst (voteOf cid uid) votes)
      | none => (none, votes)
    | _ =>
      match votes.find? (voteOf cid uid) with
      | some _ => (none, updateFirst (voteOf cid uid) (fun r => { r with kind := vt }) votes)
      | none => (none, votes ++ [{ commentId := cid, userId := uid, kind := vt }])
  else (some .notFound, votes)

/-! ## Socket broadcast (source lines 464-465, 642-653) -/

/-- Connected socket.  `joinedRooms` are the URL rooms entered via the
`joinRoom` message — the only subscription the connection handler
offers.  `subscribedAs` renders the spec's per-user subscription;
no code path of the server ever sets it. -/
structure Socket where
  sid : Nat
  joinedRooms : List (List Char)
  subscribedAs : Option Nat
  deriving DecidableEq, Inhabited

/-- Model of `io.emit(...)`: socket.io delivers a plain `io.emit` to
every connected socket.  Returns the socket ids that receive the
event. -/
def ioEmitReceivers (socketsL : List Socket) : List Nat :=
  socketsL.map (fun s => s.sid)

/-- Receivers of the `notification` event emitted for a mention
(source line 465: `io.emit('notification', { userId, notification })`).
The recipient id rides in the payload; delivery ignores it. -/
def notificationReceivers (socketsL : List Socket) (_recipient : Nat) : List Nat :=
  ioEmitReceivers socketsL

/-! ## Comment tree builder (server.js `buildCommentTree`, lines 108-130)

The JS function first fills a `Map` from comment id to a fresh node
`{...comment, replies: []}`, then walks the input again: a comment with
a (non-null) parent id is appended to its parent's `replies` when the
parent is in the map and silently dropped otherwise, and a comment with
null parent id is pushed onto the root list.  Nodes are shared by
reference; we model the map as an association list from id to node and
store the replies as the child comments' ids.  JS `Map` keys are unique
(`set` overwrites); under the distinct-ids hypothesis used by the
theorems the association-list rendering agrees with it. -/

/-- Node of the builder's map: the comment plus the ids of the nodes
pushed into its `replies` array, in push order. -/
structure TreeNode where
  c : StoredComment
  replies : List Nat
  deriving DecidableEq, Inhabited

/-- Association list modelling the builder's `commentMap`. -/
abbrev NodeMap := List (Nat × TreeNode)

/-- Lookup modelling `commentMap.get(i)`. -/
def mapLookup (m : NodeMap) (i : Nat) : Option TreeNode :=
  (m.find? (fun e => e.1 == i)).map (fun e => e.2)

/-- First pass: `comments.forEach(c => commentMap.set(c.id, {...c, replies: []}))`. -/
def initMap (l : List StoredComment) : NodeMap :=
  l.map (fun c => (c.id, ⟨c, []⟩))

/-- Mutation `parent.replies.push(node)` on the map entry of id `p`. -/
def appendReply (m : NodeMap) (p cid : Nat) : NodeMap :=
  m.map (fun e => if e.1 == p then (e.1, ⟨e.2.c, e.2.replies ++ [cid]⟩) else e)

/-- Second pass, one comment: link under the parent when the parent id
is non-null and present in the map, push to the roots when the parent
id is null, drop silently otherwise. -/
def linkStep (st : NodeMap × List Nat) (c : StoredComment) : NodeMap × List Nat :=
  match c.parentId with
  | some p => if (mapLookup st.1 p).isSome then (appendReply st.1 p c.id, st.2) else st
  | none => (st.1, st.2 ++ [c.id])

/-- Model of `buildCommentTree(comments)`: the final map and the list of
root node ids, from which the returned forest is read off by following
`replies` through the map. -/
def buildCommentTree (l : List StoredComment) : NodeMap × List Nat :=
  l.foldl linkStep (initMap l, [])

/-- Number of nodes of the subtree rooted at id `i` in map `m` (the
node itself plus all its descendants), fuel-bounded; fuel exceeding the
forest depth is enough, and the callers pass `l.length + 1`. -/
def nodeCount (m : NodeMap) : Nat → Nat → Nat
  | 0, _ => 0
  | fuel + 1, i =>
    match mapLookup m i with
    | some nd => 1 + (nd.replies.map (nodeCount m fuel)).sum
    | none => 0

/-- The claim's measure of the builder's output: the number of comments
reachable from the returned roots — roots plus all their descendants. -/
def reachableCount (l : List StoredComment) : Nat :=
  (((buildCommentTree l).2).map (nodeCount (buildCommentTree l).1 (l.length + 1))).sum

/-- Measure stated by the claim (spec words): the number of input
comments whose parent, if non-null, is also present in the input. -/
def specParentPresentCount (l : List StoredComment) : Nat :=
  (l.filter (fun c =>
    match c.parentId with
    | none => true
    | some p => (l.find? (fun d => d.id == p)).isSome)).length

/-! ### Pure counting functions used to reason about the builder -/

/-- Presence of an id in the input. -/
def presentB (l : List StoredComment) (i : Nat) : Bool :=
  (l.find? (fun d => d.id == i)).isSome

/-- Ids of the comments whose parent id is `i`, in input order. -/
def childIds (l : List StoredComment) (i : Nat) : List Nat :=
  (l.filter (fun d => d.parentId == some i)).map (fun d => d.id)

/-- Ids of the comments with null parent, in input order. -/
def rootIds (l : List StoredComment) : List Nat :=
  (l.filter (fun c => c.parentId == none)).map (fun c => c.id)

/-- Subtree size at id `i` computed from the input alone: the final map
of the builder stores exactly `childIds l i` as the replies of a
present id `i` (proved below), so this mirrors `nodeCount`. -/
def cnt (l : List StoredComment) : Nat → Nat → Nat
  | 0, _ => 0
  | fuel + 1, i =>
    if presentB l i then 1 + ((childIds l i).map (cnt l fuel)).sum else 0

/-- Ancestor relation along parent ids within the input: `reaches n d i`
holds when following parent ids from comment id `d` (each step staying
inside the input) hits id `i` within `n` steps. -/
def reaches (l : List StoredComment) : Nat → Nat → Nat → Bool
  | 0, d, i => d == i
  | fuel + 1, d, i =>
    d == i ||
      match l.find? (fun c => c.id == d) with
      | some c =>
        match c.parentId with
        | some p => reaches l fuel p i
        | none => false
      | none => false

/-- Anchoredness: following parent ids from id `d` through the input
reaches a comment with null parent within `n` steps.  Fuel `l.length`
suffices for every terminating chain: a longer chain would revisit an
id and hence never terminate. -/
def anchoredB (l : List StoredComment) : Nat → Nat → Bool
  | 0, d =>
    match l.find? (fun c => c.id == d) with
    | some c => c.parentId == none
    | none => false
  | fuel + 1, d =>
    match l.find? (fun c => c.id == d) with
    | some c =>
      match c.parentId with
      | none => true
      | some p => anchoredB l fuel p
    | none => false

/-- Pairwise-distinct comment ids (always true of a real store, where
ids are unique keys). -/
def distinctIds (l : List StoredComment) : Prop :=
  l.Pairwise (fun a b => a.id ≠ b.id)

instance (l : List StoredComment) : Decidable (distinctIds l) := by
  unfold distinctIds
  infer_instance

/-- Input refuting the claimed count equality: comment 1 is an orphan
(parent 99 absent), comment 2 is a child of the orphan, so its parent
IS present yet it is unreachable from the (empty) root list. -/
def c5CounterInput : List StoredComment :=
  [⟨1, some 99, 0, 0, 0⟩, ⟨2, some 1, 0, 0, 0⟩]

/-- Concrete input for the amended count theorem: a root with one
child, plus an orphan. -/
def c5WitnessInput : List StoredComment :=
  [⟨1, none, 0, 0, 0⟩, ⟨2, some 1, 0, 0, 0⟩, ⟨3, some 9, 0, 0, 0⟩]

/-! ## Heap-level model of buildCommentTree (frame property)

JS objects live on a heap and `buildCommentTree` mutates objects only
through references it created itself.  To state that the builder never
writes to an input comment object, the heap is explicit: addresses are
Nats, the heap maps addresses to objects, and the input array is a
list of addresses.  A stored comment object has no `replies` field
(`replies = none`); the spread copy `{...comment, replies: []}`
allocates a NEW object with `replies = some []` at a fresh address
(above every address of the initial heap).  All writes of the second
pass go through the id-to-node-address map built in the first pass,
whose addresses are all fresh. -/

/-- Heap object: comment fields plus the optional `replies` array of
addresses (input comment objects carry none, builder nodes some). -/
structure HObj where
  fields : StoredComment
  replies : Option (List Nat)
  deriving DecidableEq, Inhabited

/-- Heap: association list from address to object. -/
abbrev Heap := List (Nat × HObj)

/-- Dereference an address. -/
def heapGet (h : Heap) (a : Nat) : Option HObj :=
  (h.find? (fun e => e.1 == a)).map (fun e => e.2)

/-- Overwrite the object at an address (mutation through a reference). -/
def heapSet (h : Heap) (a : Nat) (o : HObj) : Heap :=
  h.map (fun e => if e.1 == a then (e.1, o) else e)

/-- The first address strictly above every address of the heap. -/
def freshAddr (h : Heap) : Nat :=
  (h.map (fun e => e.1)).foldr (fun x m => max x m) 0 + 1

/-- First pass at heap level:
`commentMap.set(c.id, {...c, replies: []})` — allocate a shallow copy
with an empty replies array at the next fresh address and record it in
the id-to-address map.  State: (heap, map, next fresh address). -/
def heapInitStep (st : Heap × List (Nat × Nat) × Nat) (a : Nat) :
    Heap × List (Nat × Nat) × Nat :=
  match heapGet st.1 a with
  | some o =>
    (st.1 ++ [(st.2.2, ⟨o.fields, some []⟩)],
     st.2.1 ++ [(o.fields.id, st.2.2)], st.2.2 + 1)
  | none => st

/-- Second pass at heap level: for an input comment with a non-null
parent id, push the comment's node address onto the parent node's
replies (when the parent id is in the map); for a null parent id, push
the comment's node address onto the root list.  The inner `none`
branches are unreachable for well-formed inputs (pass one has mapped
every input id). -/
def heapLinkStep (cmap : List (Nat × Nat)) (st : Heap × List Nat) (a : Nat) :
    Heap × List Nat :=
  match heapGet st.1 a with
  | some o =>
    match o.fields.parentId with
    | some p =>
      match (cmap.find? (fun e => e.1 == p)).map (fun e => e.2) with
      | some pa =>
        match heapGet st.1 pa with
        | some pnode =>
          match (cmap.find? (fun e => e.1 == o.fields.id)).map (fun e => e.2) with
          | some na =>
            (heapSet st.1 pa ⟨pnode.fields, some (pnode.replies.getD [] ++ [na])⟩, st.2)
          | none => st
        | none => st
      | none => st
    | none =>
      match (cmap.find? (fun e => e.1 == o.fields.id)).map (fun e => e.2) with
      | some na => (st.1, st.2 ++ [na])
      | none => st
  | none => st

/-- The builder at heap level: final heap, root node addresses, and the
id-to-node-address map. -/
def buildCommentTreeHeap (h0 : Heap) (input : List Nat) :
    Heap × List Nat × List (Nat × Nat) :=
  let st1 := input.foldl heapInitStep (h0, [], freshAddr h0)
  let st2 := input.foldl (heapLinkStep st1.2.1) (st1.1, [])
  (st2.1, st2.2, st1.2.1)

/-- Initial heap of the frame-property witness: one comment object at
address 0. -/
def c10WitnessHeap : Heap :=
  [(0, ⟨⟨1, none, 7, 0, 0⟩, none⟩)]

/-! ## Helper lemmas on updateFirst / removeFirst / find? -/

theorem find?_append_of_none {p : α → Bool} {l₁ : List α} (l₂ : List α)
    (h : l₁.find? p = none) : (l₁ ++ l₂).find? p = l₂.find? p := by
  rw [List.find?_append, h, Option.none_or]

theorem updateFirst_append_of_none {p : α → Bool} {f : α → α} {l₁ : List α} (l₂ : List α)
    (h : l₁.find? p = none) : updateFirst p f (l₁ ++ l₂) = l₁ ++ updateFirst p f l₂ := by
  induction l₁ with
  | nil => rfl
  | cons x xs ih =>
    have hx : p x = false := by
      by_contra hx
      rw [List.find?_cons_of_pos _ (by simpa using hx)] at h
      exact Option.noConfusion h
    rw [List.find?_cons_of_neg _ (by simp [hx])] at h
    simp only [List.cons_append, updateFirst, hx, Bool.false_eq_true, if_false, List.append_eq]
    rw [ih h]

theorem find?_updateFirst {p : α → Bool} {f : α → α}
    (hf : ∀ a, p a = true → p (f a) = true) (l : List α) :
    (updateFirst p f l).find? p = (l.find? p).map f := by
  induction l with
  | nil => rfl
  | cons x xs ih =>
    cases hx : p x with
    | true =>
      rw [updateFirst, if_pos hx, List.find?_cons_of_pos _ (hf x hx),
        List.find?_cons_of_pos _ hx, Option.map_some']
    | false =>
      rw [updateFirst, if_neg (by simp [hx]), List.find?_cons_of_neg _ (by simp [hx]),
        List.find?_cons_of_neg _ (by simp [hx])]
      exact ih

theorem updateFirst_noop {p : α → Bool} {f : α → α} {l : List α} {r : α}
    (hfind : l.find? p = some r) (hr : f r = r) : updateFirst p f l = l := by
  induction l with
  | nil => simp at hfind
  | cons x xs ih =>
    rw [List.find?_cons] at hfind
    cases hx : p x with
    | true =>
      simp only [hx, if_true] at hfind
      cases hfind
      simp [updateFirst, hx, hr]
    | false =>
      simp only [hx, Bool.false_eq_true, if_false] at hfind
      simp [updateFirst, hx, ih hfind]

theorem mem_updateFirst {p : α → Bool} {f : α → α} {l : List α} {a : α}
    (h : a ∈ updateFirst p f l) : a ∈ l ∨ ∃ b ∈ l, a = f b := by
  induction l with
  | nil => simp [updateFirst] at h
  | cons x xs ih =>
    by_cases hx : p x = true
    · simp only [updateFirst, hx, if_true] at h
      rcases List.mem_cons.1 h with h | h
      · exact Or.inr ⟨x, List.mem_cons_self .., h⟩
      · exact Or.inl (List.mem_cons_of_mem _ h)
    · simp only [updateFirst, hx, if_false] at h
      rcases List.mem_cons.1 h with h | h
      · exact Or.inl (h ▸ List.mem_cons_self ..)
      · rcases ih h with h | ⟨b, hb, hab⟩
        · exact Or.inl (List.mem_cons_of_mem _ h)
        · exact Or.inr ⟨b, List.mem_cons_of_mem _ hb, hab⟩

/-! ## Claim theorems (C1-C4, C6-C9) -/

/-- Claim C1 (code behavior at the failing input): with user `bob` and a
different author, the mention loop over `"hi @bob and @bob"` creates TWO
notification rows for bob, not one — the per-occurrence loop does not
de-duplicate recipients. -/
theorem mentionRecipients_duplicate_bob :
    mentionRecipients [⟨1, "bob".toList⟩] 2 "hi @bob and @bob".toList = [1, 1]
    ∧ (mentionRecipients [⟨1, "bob".toList⟩] 2 "hi @bob and @bob".toList).count 1 = 2 := by
  decide

theorem fsCastVote_nonremove_snd (commentIds : List Nat) (votes : List VoteRow)
    (cid uid : Nat) (vt : VoteType) (hex : commentIds.contains cid = true)
    (hk : vt = .up ∨ vt = .down) :
    (fsCastVote commentIds votes cid uid vt).2 =
      match votes.find? (voteOf cid uid) with
      | some _ => updateFirst (voteOf cid uid) (fun r => { r with kind := vt }) votes
      | none => votes ++ [⟨cid, uid, vt⟩] := by
  rcases hk with rfl | rfl <;>
    · simp only [fsCastVote, hex, if_true]
      cases votes.find? (voteOf cid uid) <;> rfl

/-- Claim C2: in the per-user-row (Firestore) variant, casting the same
vote kind twice for the same comment and voter is idempotent — the vote
collection, and hence the tally of that comment, is the same after the
second `castVote` as after the first. -/
theorem fsCastVote_idempotent (commentIds : List Nat) (votes : List VoteRow)
    (cid uid : Nat) (vt : VoteType) (hex : commentIds.contains cid = true)
    (hk : vt = .up ∨ vt = .down) :
    (fsCastVote commentIds (fsCastVote commentIds votes cid uid vt).2 cid uid vt).2
      = (fsCastVote commentIds votes cid uid vt).2
    ∧ fsTally (fsCastVote commentIds (fsCastVote commentIds votes cid uid vt).2 cid uid vt).2 cid
      = fsTally (fsCastVote commentIds votes cid uid vt).2 cid := by
  have hpres : ∀ r : VoteRow, voteOf cid uid r = true →
      voteOf cid uid { r with kind := vt } = true := by
    intro r hr; simpa [voteOf] using hr
  have main :
      (fsCastVote commentIds (fsCastVote commentIds votes cid uid vt).2 cid uid vt).2
        = (fsCastVote commentIds votes cid uid vt).2 := by
    rw [fsCastVote_nonremove_snd commentIds votes cid uid vt hex hk]
    cases h : votes.find? (voteOf cid uid) with
    | none =>
      rw [fsCastVote_nonremove_snd commentIds _ cid uid vt hex hk]
      have hrow : voteOf cid uid (⟨cid, uid, vt⟩ : VoteRow) = true := by simp [voteOf]
      have hfind : ((votes ++ [(⟨cid, uid, vt⟩ : VoteRow)]).find? (voteOf cid uid))
          = some ⟨cid, uid, vt⟩ := by
        rw [find?_append_of_none _ h, List.find?_cons_of_pos _ hrow]
      rw [hfind, updateFirst_append_of_none _ h]
      simp [updateFirst, hrow]
    | some r =>
      rw [fsCastVote_nonremove_snd commentIds _ cid uid vt hex hk]
      have hfind : ((updateFirst (voteOf cid uid) (fun r => { r with kind := vt }) votes).find?
          (voteOf cid uid)) = some { r with kind := vt } := by
        rw [find?_updateFirst hpres, h, Option.map_some']
      rw [hfind]
      exact updateFirst_noop hfind rfl
  exact ⟨main, by rw [main]⟩

/-- Claim C2 witness: a concrete instance of the idempotence theorem. -/
theorem fsCastVote_idempotent_witness :
    ([5] : List Nat).contains 5 = true
    ∧ (fsCastVote [5] (fsCastVote [5] [] 5 9 .up).2 5 9 .up).2
        = (fsCastVote [5] [] 5 9 .up).2 :=
  ⟨by decide, (fsCastVote_idempotent [5] [] 5 9 .up (by decide) (Or.inl rfl)).1⟩

/-- Claim C3 (code behavior at the failing input): deleting root comment
A (id 1) that has child B (id 2) and grandchild C (id 3) removes A and B
but leaves the grandchild C in the store — the cascade only removes
direct children. -/
theorem deleteComment_leaves_grandchild :
    (deleteCommentFile [⟨1, none, 10, 0, 0⟩, ⟨2, some 1, 11, 0, 0⟩, ⟨3, some 2, 12, 0, 0⟩]
        10 1).2 = [⟨3, some 2, 12, 0, 0⟩]
    ∧ (⟨3, some 2, 12, 0, 0⟩ : StoredComment) ∈
        (deleteCommentFile [⟨1, none, 10, 0, 0⟩, ⟨2, some 1, 11, 0, 0⟩, ⟨3, some 2, 12, 0, 0⟩]
          10 1).2 := by
  decide

/-- Claim C4 (code behavior at the failing input): the `notification`
event for recipient 9 is emitted with `io.emit`, which delivers to every
connected socket; a socket subscribed as a different user (or not
subscribed at all) still receives it. -/
theorem notification_broadcast_reaches_unsubscribed :
    notificationReceivers [⟨1, [], none⟩, ⟨2, [], some 7⟩] 9 = [1, 2]
    ∧ ∃ s ∈ ([⟨1, [], none⟩, ⟨2, [], some 7⟩] : List Socket),
        s.subscribedAs ≠ some 9 ∧ s.sid ∈ notificationReceivers [⟨1, [], none⟩, ⟨2, [], some 7⟩] 9 := by
  decide

/-- Claim C6: `totalPages` is the ceiling of `totalComments / limit`
(characterized as the least page count covering all comments),
`hasNextPage` holds exactly below `totalPages`, `hasPrevPage` exactly
above page 1; and the concrete instance `totalComments = 7, limit = 3`
gives 3 pages with the claimed flags on pages 1 and 3. -/
theorem pagination_spec_correct :
    (∀ t p l : Nat, 0 < l →
        t ≤ (paginationOf t p l).totalPages * l
        ∧ (∀ m : Nat, t ≤ m * l → (paginationOf t p l).totalPages ≤ m)
        ∧ ((paginationOf t p l).hasNextPage = true ↔ p < (paginationOf t p l).totalPages)
        ∧ ((paginationOf t p l).hasPrevPage = true ↔ 1 < p))
    ∧ paginationOf 7 1 3 = ⟨1, 3, 7, true, false⟩
    ∧ paginationOf 7 3 3 = ⟨3, 3, 7, false, true⟩ := by
  refine ⟨fun t p l hl => ?_, by decide, by decide⟩
  have hceil : (paginationOf t p l).totalPages = t ⌈/⌉ l := by
    simp [paginationOf, Nat.ceilDiv_eq_add_pred_div]
  refine ⟨?_, fun m hm => ?_, by simp [paginationOf], by simp [paginationOf]⟩
  · rw [hceil, Nat.mul_comm]
    exact le_smul_ceilDiv hl
  · rw [hceil]
    exact (ceilDiv_le_iff_le_mul hl).2 (by rwa [Nat.mul_comm] at hm)

/-- Claim C6 witness: a concrete application of the general pagination
characterization at totalComments 7, page 2, limit 3. -/
theorem pagination_spec_correct_witness :
    0 < 3 ∧ 7 ≤ (paginationOf 7 2 3).totalPages * 3 :=
  ⟨by decide, (pagination_spec_correct.1 7 2 3 (by decide)).1⟩

/-- Claim C7: voting on a missing comment id fails with NotFound and
leaves the vote state untouched, in both the Firestore (per-user rows)
and the file-backed (counters) variant. -/
theorem castVote_missing_comment_notFound (commentIds : List Nat) (votes : List VoteRow)
    (store : List StoredComment) (cid uid : Nat) (vt : VoteType)
    (hfs : commentIds.contains cid = false)
    (hfile : store.find? (fun c => c.id == cid) = none) :
    fsCastVote commentIds votes cid uid vt = (some .notFound, votes)
    ∧ fileVote store cid vt = (some .notFound, store) := by
  constructor
  · simp only [fsCastVote, hfs, Bool.false_eq_true, if_false]
  · simp only [fileVote, hfile]

/-- Claim C7 witness: voting on comment 5 with empty stores. -/
theorem castVote_missing_comment_notFound_witness :
    (([] : List Nat).contains 5 = false
      ∧ ([] : List StoredComment).find? (fun c => c.id == 5) = none)
    ∧ fsCastVote [] [] 5 9 .up = (some .notFound, [])
    ∧ fileVote [] 5 .up = (some .notFound, []) :=
  ⟨⟨by decide, by decide⟩,
    castVote_missing_comment_notFound [] [] [] 5 9 .up (by decide) (by decide)⟩

/-- Tally invariant of the file-backed store: no comment has a negative
counter. -/
def tallyInv (store : List StoredComment) : Prop :=
  ∀ c ∈ store, 0 ≤ c.upvotes ∧ 0 ≤ c.downvotes

theorem tallyInv_step {store : List StoredComment} (h : tallyInv store) (op : FileOp) :
    tallyInv (fileStep store op) := by
  cases op with
  | create cid parentId authorId =>
    intro c hc
    rcases List.mem_append.1 hc with hc | hc
    · exact h c hc
    · simp only [List.mem_singleton] at hc
      subst hc; exact ⟨le_refl 0, le_refl 0⟩
  | vote cid vt =>
    intro c hc
    simp only [fileStep, fileVote] at hc
    cases hfind : store.find? (fun c => c.id == cid) with
    | none => rw [hfind] at hc; exact h c hc
    | some r =>
      rw [hfind] at hc
      simp only at hc
      rcases mem_updateFirst hc with hc | ⟨b, hb, rfl⟩
      · exact h c hc
      · rcases h b hb with ⟨hu, hd⟩
        cases vt with
        | remove => exact ⟨le_max_left 0 _, le_max_left 0 _⟩
        | up => exact ⟨show (0:Int) ≤ b.upvotes + 1 by omega, hd⟩
        | down => exact ⟨hu, show (0:Int) ≤ b.downvotes + 1 by omega⟩

theorem tallyInv_foldl {store : List StoredComment} (h : tallyInv store) (ops : List FileOp) :
    tallyInv (List.foldl fileStep store ops) := by
  induction ops generalizing store with
  | nil => exact h
  | cons op ops ih => exact ih (tallyInv_step h op)

/-- Claim C8: starting from the empty file-backed store, any sequence of
comment creations and vote requests (incl. removals, which clamp at
zero) leaves every comment with non-negative upvote and downvote
counters. -/
theorem fileVote_tallies_nonneg (ops : List FileOp) :
    ∀ c ∈ List.foldl fileStep [] ops, 0 ≤ c.upvotes ∧ 0 ≤ c.downvotes :=
  tallyInv_foldl (by intro c hc; simp at hc) ops

/-- Claim C8 witness: create comment 1 and upvote it; the resulting
comment is in the store with counters 1 and 0, both non-negative. -/
theorem fileVote_tallies_nonneg_witness :
    (⟨1, none, 5, 1, 0⟩ : StoredComment) ∈
      List.foldl fileStep [] [FileOp.create 1 none 5, FileOp.vote 1 .up]
    ∧ 0 ≤ (⟨1, none, 5, 1, 0⟩ : StoredComment).upvotes
    ∧ 0 ≤ (⟨1, none, 5, 1, 0⟩ : StoredComment).downvotes :=
  ⟨by decide,
    fileVote_tallies_nonneg [FileOp.create 1 none 5, FileOp.vote 1 .up]
      ⟨1, none, 5, 1, 0⟩ (by decide)⟩

/-- Claim C9: mention resolution is case-insensitive: a resolved user's
username agrees with the handle up to lowercasing, a handle resolves to
some user exactly when a user with lowercase-equal username exists, and
handles equal up to case resolve identically. -/
theorem mention_resolution_case_insensitive :
    (∀ (us : List JsUser) (x : List Char) (u : JsUser),
        resolveMention us x = some u → lowerChars u.username = lowerChars x)
    ∧ (∀ (us : List JsUser) (x : List Char),
        (resolveMention us x).isSome = true ↔ ∃ u ∈ us, lowerChars u.username = lowerChars x)
    ∧ (∀ (us : List JsUser) (x y : List Char),
        lowerChars x = lowerChars y → resolveMention us x = resolveMention us y) := by
  refine ⟨fun us x u h => ?_, fun us x => ?_, fun us x y h => ?_⟩
  · simpa using List.find?_some h
  · rw [resolveMention, List.find?_isSome]
    simp
  · unfold resolveMention
    rw [h]

/-- Claim C9 witness: `@Bob` and `@bob` resolve to the same user. -/
theorem mention_resolution_case_insensitive_witness :
    lowerChars "Bob".toList = lowerChars "bob".toList
    ∧ resolveMention [⟨1, "bob".toList⟩] "Bob".toList
        = resolveMention [⟨1, "bob".toList⟩] "bob".toList :=
  ⟨by decide, mention_resolution_case_insensitive.2.2 [⟨1, "bob".toList⟩] _ _ (by decide)⟩

/-! ## Tree builder: generic counting lemmas -/

theorem bool_eq_of_true_iff {a b : Bool} (h : a = true ↔ b = true) : a = b := by
  cases a <;> cases b <;> simp_all

theorem length_filter_or_disjoint {α} (p q : α → Bool) (l : List α)
    (h : ∀ a ∈ l, ¬(p a = true ∧ q a = true)) :
    (l.filter (fun a => p a || q a)).length
      = (l.filter p).length + (l.filter q).length := by
  induction l with
  | nil => rfl
  | cons x xs ih =>
    have hx := h x (List.mem_cons_self ..)
    have ihx := ih (fun a ha => h a (List.mem_cons_of_mem _ ha))
    by_cases hp : p x = true
    · by_cases hq : q x = true
      · exact absurd ⟨hp, hq⟩ hx
      · rw [List.filter_cons_of_pos (by simp [hp]), List.filter_cons_of_pos hp,
          List.filter_cons_of_neg hq, List.length_cons, List.length_cons, ihx]
        omega
    · by_cases hq : q x = true
      · rw [List.filter_cons_of_pos (by simp [hp, hq]), List.filter_cons_of_neg hp,
          List.filter_cons_of_pos hq, List.length_cons, List.length_cons, ihx]
        omega
      · rw [List.filter_cons_of_neg (by simp [hp, hq]), List.filter_cons_of_neg hp,
          List.filter_cons_of_neg hq, ihx]

theorem sum_map_length_filter {α β} (l : List α) (js : List β) (P : β → α → Bool)
    (hd : js.Pairwise (fun j1 j2 => ∀ a ∈ l, ¬(P j1 a = true ∧ P j2 a = true))) :
    (js.map (fun j => (l.filter (P j)).length)).sum
      = (l.filter (fun a => js.any (fun j => P j a))).length := by
  induction js with
  | nil => simp
  | cons j js ih =>
    have hdc := List.pairwise_cons.1 hd
    have hdisj : ∀ a ∈ l, ¬(P j a = true ∧ (js.any (fun j2 => P j2 a)) = true) := by
      intro a ha hcon
      rcases List.any_eq_true.1 hcon.2 with ⟨j2, hj2, hPa⟩
      exact hdc.1 j2 hj2 a ha ⟨hcon.1, hPa⟩
    rw [List.map_cons, List.sum_cons, ih hdc.2,
      ← length_filter_or_disjoint (P j) (fun a => js.any (fun j2 => P j2 a)) l hdisj]
    apply congrArg List.length
    apply List.filter_congr
    intro a _
    simp [List.any_cons]

/-! ## Tree builder: facts about distinct ids -/

theorem find?_id_eq_some_of_mem {l : List StoredComment}
    (h : l.Pairwise (fun a b => a.id ≠ b.id)) {c : StoredComment} (hc : c ∈ l) :
    l.find? (fun d => d.id == c.id) = some c := by
  induction l with
  | nil => simp at hc
  | cons x xs ih =>
    rcases List.mem_cons.1 hc with rfl | hc
    · exact List.find?_cons_of_pos _ (by simp)
    · have hx : x.id ≠ c.id := (List.pairwise_cons.1 h).1 c hc
      rw [List.find?_cons_of_neg _ (by simpa using hx)]
      exact ih (List.pairwise_cons.1 h).2 hc

theorem eq_of_mem_of_id_eq {l : List StoredComment} (h : distinctIds l)
    {a b : StoredComment} (ha : a ∈ l) (hb : b ∈ l) (hab : a.id = b.id) : a = b := by
  have h1 := find?_id_eq_some_of_mem h ha
  have h2 := find?_id_eq_some_of_mem h hb
  rw [hab] at h1
  rw [h1] at h2
  exact Option.some.inj h2

theorem filter_id_eq_singleton {l : List StoredComment}
    (h : l.Pairwise (fun a b => a.id ≠ b.id)) {c : StoredComment} (hc : c ∈ l) :
    l.filter (fun d => d.id == c.id) = [c] := by
  induction l with
  | nil => simp at hc
  | cons x xs ih =>
    rcases List.mem_cons.1 hc with rfl | hc
    · rw [List.filter_cons_of_pos (by simp)]
      have hnil : xs.filter (fun d => d.id == c.id) = [] := by
        rw [List.filter_eq_nil_iff]
        intro a ha
        simpa using ((List.pairwise_cons.1 h).1 a ha).symm
      rw [hnil]
    · have hx : x.id ≠ c.id := (List.pairwise_cons.1 h).1 c hc
      rw [List.filter_cons_of_neg (by simpa using hx)]
      exact ih (List.pairwise_cons.1 h).2 hc

theorem length_filter_id {l : List StoredComment} (h : distinctIds l) {i : Nat}
    {ci : StoredComment} (hfi : l.find? (fun d => d.id == i) = some ci) :
    (l.filter (fun d => d.id == i)).length = 1 := by
  have hid : ci.id = i := by simpa using List.find?_some hfi
  rw [← hid, filter_id_eq_singleton h (List.mem_of_find?_eq_some hfi)]
  rfl

theorem mem_childIds_iff {l : List StoredComment} {i j : Nat} :
    j ∈ childIds l i ↔ ∃ e ∈ l, e.parentId = some i ∧ e.id = j := by
  simp [childIds, List.mem_map, List.mem_filter, and_assoc]

theorem mem_rootIds_iff {l : List StoredComment} {r : Nat} :
    r ∈ rootIds l ↔ ∃ e ∈ l, e.parentId = none ∧ e.id = r := by
  simp [rootIds, List.mem_map, List.mem_filter, and_assoc]

theorem childIds_pairwise_ne {l : List StoredComment} (h : distinctIds l) (i : Nat) :
    (childIds l i).Pairwise (fun a b => a ≠ b) := by
  unfold childIds
  exact List.Pairwise.map (fun d : StoredComment => d.id) (fun _ _ hab => hab)
    (List.Pairwise.filter _ h)

theorem rootIds_pairwise_ne {l : List StoredComment} (h : distinctIds l) :
    (rootIds l).Pairwise (fun a b => a ≠ b) := by
  unfold rootIds
  exact List.Pairwise.map (fun c : StoredComment => c.id) (fun _ _ hab => hab)
    (List.Pairwise.filter _ h)

/-! ## Tree builder: the ancestor relation -/

theorem reaches_refl (l : List StoredComment) : ∀ (n d : Nat), reaches l n d d = true
  | 0, d => by simp [reaches]
  | n + 1, d => by simp [reaches]

theorem reaches_zero_iff {l : List StoredComment} {x i : Nat} :
    reaches l 0 x i = true ↔ x = i := by
  simp [reaches]

theorem reaches_succ_iff {l : List StoredComment} {n x i : Nat} :
    reaches l (n + 1) x i = true ↔
      (x = i ∨ ∃ cx y, l.find? (fun c => c.id == x) = some cx
        ∧ cx.parentId = some y ∧ reaches l n y i = true) := by
  constructor
  · intro hr
    simp only [reaches] at hr
    rcases (Bool.or_eq_true _ _ ▸ hr : _ ∨ _) with h1 | h2
    · exact Or.inl (by simpa using h1)
    · cases hfx : l.find? (fun c => c.id == x) with
      | none => rw [hfx] at h2; simp at h2
      | some cx =>
        rw [hfx] at h2
        have h2a : (match cx.parentId with
            | some p => reaches l n p i
            | none => false) = true := h2
        cases hy : cx.parentId with
        | none => rw [hy] at h2a; simp at h2a
        | some y =>
          rw [hy] at h2a
          exact Or.inr ⟨cx, y, rfl, hy, h2a⟩
  · intro hr
    rcases hr with rfl | ⟨cx, y, hfx, hy, hr⟩
    · exact reaches_refl l _ x
    · simp only [reaches, hfx, hy]
      simp [hr]

theorem present_of_anchored {l : List StoredComment} {m i : Nat}
    (hm : anchoredB l m i = true) :
    ∃ c, l.find? (fun d => d.id == i) = some c := by
  cases m <;>
    (simp only [anchoredB] at hm
     cases hfi : l.find? (fun c => c.id == i) with
     | none => rw [hfi] at hm; simp at hm
     | some c => exact ⟨c, rfl⟩)

theorem reaches_ext {l : List StoredComment} {e : StoredComment} {j i : Nat}
    (hj : l.find? (fun d => d.id == j) = some e) (hp : e.parentId = some i) :
    ∀ {a x : Nat}, reaches l a x j = true → reaches l (a + 1) x i = true := by
  intro a
  induction a with
  | zero =>
    intro x hx
    have hxj : x = j := reaches_zero_iff.1 hx
    subst hxj
    exact reaches_succ_iff.2 (Or.inr ⟨e, i, hj, hp, reaches_refl l 0 i⟩)
  | succ a ih =>
    intro x hx
    rcases reaches_succ_iff.1 hx with rfl | ⟨cx, y, hfx, hy, hr⟩
    · exact reaches_succ_iff.2 (Or.inr ⟨e, i, hj, hp, reaches_refl l (a + 1) i⟩)
    · exact reaches_succ_iff.2 (Or.inr ⟨cx, y, hfx, hy, ih hr⟩)

theorem no_return_of_anchored {l : List StoredComment} :
    ∀ {m i : Nat}, anchoredB l m i = true →
      ∀ {k : Nat} {c : StoredComment} {p : Nat},
        l.find? (fun e => e.id == i) = some c → c.parentId = some p →
          reaches l k p i = true → False := by
  intro m
  induction m with
  | zero =>
    intro i hm k c p hfind hp _
    simp only [anchoredB, hfind] at hm
    rw [hp] at hm
    simp at hm
  | succ m ih =>
    intro i hm k c p hfind hp hr
    simp only [anchoredB, hfind, hp] at hm
    by_cases hpi : p = i
    · subst hpi
      exact ih hm hfind hp (reaches_refl l 0 p)
    · cases k with
      | zero => exact hpi (reaches_zero_iff.1 hr)
      | succ k =>
        rcases reaches_succ_iff.1 hr with rfl | ⟨cp, q, hfp, hq, h2⟩
        · exact hpi rfl
        · exact ih hm hfp hq (reaches_ext hfind hp h2)

theorem no_reach_child_of_anchored {l : List StoredComment} (h : distinctIds l)
    {m i : Nat} (hm : anchoredB l m i = true) :
    ∀ {n j : Nat}, j ∈ childIds l i → reaches l n i j = true → False := by
  intro n j hj hr
  obtain ⟨e, hel, hep, heid⟩ := mem_childIds_iff.1 hj
  have hfj : l.find? (fun d => d.id == j) = some e := by
    rw [← heid]; exact find?_id_eq_some_of_mem h hel
  by_cases hij : i = j
  · subst hij
    exact no_return_of_anchored hm hfj hep (reaches_refl l 0 i)
  · cases n with
    | zero => exact hij (reaches_zero_iff.1 hr)
    | succ n =>
      rcases reaches_succ_iff.1 hr with h1 | ⟨ci, w, hfi, hw, h2⟩
      · exact hij h1
      · exact no_return_of_anchored hm hfi hw (reaches_ext hfj hep h2)

theorem reach_through_child {l : List StoredComment} {i : Nat} :
    ∀ {n x : Nat}, x ≠ i → reaches l (n + 1) x i = true →
      ∃ j ∈ childIds l i, reaches l n x j = true := by
  intro n
  induction n with
  | zero =>
    intro x hxi hr
    rcases reaches_succ_iff.1 hr with h1 | ⟨cx, y, hfx, hy, h2⟩
    · exact absurd h1 hxi
    · have hyi : y = i := reaches_zero_iff.1 h2
      subst hyi
      refine ⟨x, ?_, reaches_refl l 0 x⟩
      refine mem_childIds_iff.2 ⟨cx, List.mem_of_find?_eq_some hfx, hy, ?_⟩
      simpa using List.find?_some hfx
  | succ n ih =>
    intro x hxi hr
    rcases reaches_succ_iff.1 hr with h1 | ⟨cx, y, hfx, hy, h2⟩
    · exact absurd h1 hxi
    · by_cases hyi : y = i
      · subst hyi
        refine ⟨x, ?_, reaches_refl l (n + 1) x⟩
        refine mem_childIds_iff.2 ⟨cx, List.mem_of_find?_eq_some hfx, hy, ?_⟩
        simpa using List.find?_some hfx
      · obtain ⟨j, hj, hrj⟩ := ih hyi h2
        exact ⟨j, hj, reaches_succ_iff.2 (Or.inr ⟨cx, y, hfx, hy, hrj⟩)⟩

theorem reaches_child_unique {l : List StoredComment} (h : distinctIds l)
    {m i : Nat} (hm : anchoredB l m i = true) :
    ∀ {n d j1 j2 : Nat}, j1 ∈ childIds l i → j2 ∈ childIds l i → j1 ≠ j2 →
      reaches l n d j1 = true → reaches l n d j2 = true → False := by
  intro n
  induction n with
  | zero =>
    intro d j1 j2 _ _ hne h1 h2
    exact hne ((reaches_zero_iff.1 h1).symm.trans (reaches_zero_iff.1 h2))
  | succ n ih =>
    intro d j1 j2 hj1 hj2 hne h1 h2
    rcases reaches_succ_iff.1 h1 with ha | ⟨cd, y, hfd, hy, ha⟩ <;>
      rcases reaches_succ_iff.1 h2 with hb | hb'
    · exact hne (ha.symm.trans hb)
    · -- d = j1 and the second run steps through d's parent, which is i
      obtain ⟨cd, y, hfd, hy, hb⟩ := hb'
      subst ha
      obtain ⟨e1, he1l, he1p, he1id⟩ := mem_childIds_iff.1 hj1
      have hfd' : l.find? (fun c => c.id == d) = some e1 := by
        rw [← he1id]; exact find?_id_eq_some_of_mem h he1l
      rw [hfd'] at hfd
      cases hfd
      rw [he1p] at hy
      cases hy
      exact no_reach_child_of_anchored h hm hj2 hb
    · -- symmetric: d = j2
      subst hb
      obtain ⟨e2, he2l, he2p, he2id⟩ := mem_childIds_iff.1 hj2
      have hfd' : l.find? (fun c => c.id == d) = some e2 := by
        rw [← he2id]; exact find?_id_eq_some_of_mem h he2l
      rw [hfd'] at hfd
      cases hfd
      rw [he2p] at hy
      cases hy
      exact no_reach_child_of_anchored h hm hj1 ha
    · obtain ⟨cd', y', hfd2, hy2, hb⟩ := hb'
      rw [hfd] at hfd2
      cases hfd2
      rw [hy] at hy2
      cases hy2
      exact ih hj1 hj2 hne ha hb

theorem reaches_root_unique {l : List StoredComment} (h : distinctIds l) :
    ∀ {n d r1 r2 : Nat}, r1 ∈ rootIds l → r2 ∈ rootIds l → r1 ≠ r2 →
      reaches l n d r1 = true → reaches l n d r2 = true → False := by
  intro n
  induction n with
  | zero =>
    intro d r1 r2 _ _ hne h1 h2
    exact hne ((reaches_zero_iff.1 h1).symm.trans (reaches_zero_iff.1 h2))
  | succ n ih =>
    intro d r1 r2 h1m h2m hne h1 h2
    rcases reaches_succ_iff.1 h1 with ha | ⟨cd, y, hfd, hy, ha⟩ <;>
      rcases reaches_succ_iff.1 h2 with hb | hb'
    · exact hne (ha.symm.trans hb)
    · -- d = r1 is a root, so it has no parent step
      obtain ⟨cd, y, hfd, hy, _⟩ := hb'
      subst ha
      obtain ⟨e, hel, hep, heid⟩ := mem_rootIds_iff.1 h1m
      have hfd' : l.find? (fun c => c.id == d) = some e := by
        rw [← heid]; exact find?_id_eq_some_of_mem h hel
      rw [hfd'] at hfd
      cases hfd
      rw [hep] at hy
      cases hy
    · subst hb
      obtain ⟨e, hel, hep, heid⟩ := mem_rootIds_iff.1 h2m
      have hfd' : l.find? (fun c => c.id == d) = some e := by
        rw [← heid]; exact find?_id_eq_some_of_mem h hel
      rw [hfd'] at hfd
      cases hfd
      rw [hep] at hy
      cases hy
    · obtain ⟨cd', y', hfd2, hy2, hb⟩ := hb'
      rw [hfd] at hfd2
      cases hfd2
      rw [hy] at hy2
      cases hy2
      exact ih h1m h2m hne ha hb

/-! ## Tree builder: characterizing the built state -/

theorem mapLookup_cons_self (k : Nat) (nd : TreeNode) (es : NodeMap) :
    mapLookup ((k, nd) :: es) k = some nd := by
  simp [mapLookup, List.find?_cons]

theorem mapLookup_cons_ne {k i : Nat} (h : ¬k = i) (nd : TreeNode) (es : NodeMap) :
    mapLookup ((k, nd) :: es) i = mapLookup es i := by
  simp [mapLookup, List.find?_cons, h]

theorem mapLookup_initMap (l : List StoredComment) (i : Nat) :
    mapLookup (initMap l) i
      = (l.find? (fun c => c.id == i)).map (fun c => (⟨c, []⟩ : TreeNode)) := by
  induction l with
  | nil => rfl
  | cons c cs ih =>
    show mapLookup ((c.id, (⟨c, []⟩ : TreeNode)) :: initMap cs) i = _
    by_cases hci : c.id = i
    · subst hci
      rw [mapLookup_cons_self, List.find?_cons_of_pos _ (by simp)]
      rfl
    · rw [mapLookup_cons_ne hci, List.find?_cons_of_neg _ (by simpa using hci)]
      exact ih

theorem appendReply_cons (k : Nat) (nd : TreeNode) (es : NodeMap) (p cid : Nat) :
    appendReply ((k, nd) :: es) p cid
      = (if k = p then (k, (⟨nd.c, nd.replies ++ [cid]⟩ : TreeNode)) else (k, nd))
          :: appendReply es p cid := by
  by_cases hkp : k = p <;> simp [appendReply, hkp]

theorem mapLookup_appendReply (m : NodeMap) (p cid i : Nat) :
    mapLookup (appendReply m p cid) i =
      if i = p then (mapLookup m i).map (fun nd => (⟨nd.c, nd.replies ++ [cid]⟩ : TreeNode))
      else mapLookup m i := by
  induction m with
  | nil => by_cases hip : i = p <;> simp [appendReply, mapLookup, hip]
  | cons e es ih =>
    obtain ⟨k, nd⟩ := e
    rw [appendReply_cons]
    by_cases hkp : k = p
    · subst hkp
      rw [if_pos rfl]
      by_cases hki : k = i
      · subst hki
        rw [mapLookup_cons_self, if_pos rfl, mapLookup_cons_self]
        rfl
      · rw [mapLookup_cons_ne hki, ih, mapLookup_cons_ne hki]
    · rw [if_neg hkp]
      by_cases hki : k = i
      · subst hki
        rw [mapLookup_cons_self, if_neg (fun hip => hkp hip), mapLookup_cons_self]
      · rw [mapLookup_cons_ne hki, ih, mapLookup_cons_ne hki]

theorem linkPhase_char (l : List StoredComment) :
    ∀ (todo : List StoredComment) (m : NodeMap) (roots : List Nat) (f : Nat → List Nat),
      (∀ i, mapLookup m i
        = (l.find? (fun c => c.id == i)).map (fun c => (⟨c, f i⟩ : TreeNode))) →
      (∀ i, mapLookup (todo.foldl linkStep (m, roots)).1 i
          = (l.find? (fun c => c.id == i)).map
              (fun c => (⟨c, f i
                ++ (todo.filter (fun d => d.parentId == some i)).map (fun d => d.id)⟩
                : TreeNode)))
      ∧ (todo.foldl linkStep (m, roots)).2
          = roots ++ (todo.filter (fun d => d.parentId == none)).map (fun d => d.id) := by
  intro todo
  induction todo with
  | nil =>
    intro m roots f hm
    refine ⟨fun i => ?_, by simp⟩
    simp [hm i]
  | cons d todo ih =>
    intro m roots f hm
    simp only [List.foldl_cons]
    cases hd : d.parentId with
    | none =>
      have hstep : linkStep (m, roots) d = (m, roots ++ [d.id]) := by
        simp [linkStep, hd]
      rw [hstep]
      obtain ⟨h1, h2⟩ := ih m (roots ++ [d.id]) f hm
      refine ⟨fun i => ?_, ?_⟩
      · rw [h1 i, List.filter_cons_of_neg (by simp [hd])]
      · rw [h2, List.filter_cons_of_pos (by simp [hd])]
        simp
    | some p =>
      by_cases hpres : (mapLookup m p).isSome = true
      · have hstep : linkStep (m, roots) d = (appendReply m p d.id, roots) := by
          simp [linkStep, hd, hpres]
        rw [hstep]
        have hm' : ∀ i, mapLookup (appendReply m p d.id) i
            = (l.find? (fun c => c.id == i)).map
                (fun c => (⟨c, if i = p then f i ++ [d.id] else f i⟩ : TreeNode)) := by
          intro i
          rw [mapLookup_appendReply, hm i]
          by_cases hip : i = p
          · subst hip
            rw [if_pos rfl, Option.map_map]
            apply congrArg (fun g => Option.map g (l.find? (fun c => c.id == i)))
            funext c
            simp
          · rw [if_neg hip]
            simp [hip]
        obtain ⟨h1, h2⟩ := ih (appendReply m p d.id) roots
          (fun i => if i = p then f i ++ [d.id] else f i) hm'
        refine ⟨fun i => ?_, by rw [h2, List.filter_cons_of_neg (by simp [hd])]⟩
        rw [h1 i]
        by_cases hip : i = p
        · subst hip
          rw [if_pos rfl, List.filter_cons_of_pos (by simp [hd])]
          simp
        · rw [if_neg hip,
            List.filter_cons_of_neg (by simp [hd]; exact fun hpi => hip hpi.symm)]
      · have hstep : linkStep (m, roots) d = (m, roots) := by
          simp [linkStep, hd, hpres]
        rw [hstep]
        obtain ⟨h1, h2⟩ := ih m roots f hm
        have habs : l.find? (fun c => c.id == p) = none := by
          cases hfp : l.find? (fun c => c.id == p) with
          | none => rfl
          | some c =>
            rw [hm p, hfp] at hpres
            simp at hpres
        refine ⟨fun i => ?_, by rw [h2, List.filter_cons_of_neg (by simp [hd])]⟩
        rw [h1 i]
        by_cases hip : i = p
        · subst hip
          rw [habs]
          simp
        · rw [List.filter_cons_of_neg (by simp [hd]; exact fun hpi => hip hpi.symm)]

theorem buildCommentTree_lookup (l : List StoredComment) (i : Nat) :
    mapLookup (buildCommentTree l).1 i
      = (l.find? (fun c => c.id == i)).map (fun c => (⟨c, childIds l i⟩ : TreeNode)) := by
  have h := (linkPhase_char l l (initMap l) [] (fun _ => [])
    (fun i => by simpa using mapLookup_initMap l i)).1 i
  simpa [buildCommentTree, childIds] using h

theorem buildCommentTree_roots (l : List StoredComment) :
    (buildCommentTree l).2 = rootIds l := by
  have h := (linkPhase_char l l (initMap l) [] (fun _ => [])
    (fun i => by simpa using mapLookup_initMap l i)).2
  simpa [buildCommentTree, rootIds] using h

theorem nodeCount_eq_cnt (l : List StoredComment) :
    ∀ (fuel i : Nat), nodeCount (buildCommentTree l).1 fuel i = cnt l fuel i := by
  intro fuel
  induction fuel with
  | zero => intro i; rfl
  | succ fuel ih =>
    intro i
    rw [nodeCount, cnt, buildCommentTree_lookup]
    cases hfi : l.find? (fun c => c.id == i) with
    | none =>
      have hp : presentB l i = false := by simp [presentB, hfi]
      rw [hp]
      rfl
    | some c =>
      have hp : presentB l i = true := by simp [presentB, hfi]
      rw [hp, Option.map_some']
      simp only [if_true]
      congr 1
      apply congrArg List.sum
      exact List.map_congr_left fun j _ => ih j

/-! ## Tree builder: subtree sizes count the anchored comments -/

theorem cnt_eq_card_reaches {l : List StoredComment} (h : distinctIds l) :
    ∀ (n : Nat) {i : Nat}, (∃ m, anchoredB l m i = true) →
      cnt l (n + 1) i = (l.filter (fun d => reaches l n d.id i)).length := by
  intro n
  induction n with
  | zero =>
    intro i hanch
    obtain ⟨m, hm⟩ := hanch
    obtain ⟨ci, hfi⟩ := present_of_anchored hm
    have hpres : presentB l i = true := by simp [presentB, hfi]
    rw [cnt, if_pos hpres]
    have hz : ((childIds l i).map (cnt l 0)).sum = 0 :=
      List.sum_eq_zero (by
        intro x hx
        rcases List.mem_map.1 hx with ⟨j, _, rfl⟩
        rfl)
    rw [hz]
    have hid : ci.id = i := by simpa using List.find?_some hfi
    have hfc : l.filter (fun d => reaches l 0 d.id i)
        = l.filter (fun d => d.id == ci.id) := by
      apply List.filter_congr
      intro d _
      simp [reaches, hid]
    rw [hfc, filter_id_eq_singleton h (List.mem_of_find?_eq_some hfi)]
    rfl
  | succ n ih =>
    intro i hanch
    obtain ⟨m, hm⟩ := hanch
    obtain ⟨ci, hfi⟩ := present_of_anchored hm
    have hpres : presentB l i = true := by simp [presentB, hfi]
    have hanchChild : ∀ j ∈ childIds l i, ∃ m2, anchoredB l m2 j = true := by
      intro j hj
      obtain ⟨e, hel, hep, heid⟩ := mem_childIds_iff.1 hj
      refine ⟨m + 1, ?_⟩
      have hfj : l.find? (fun d => d.id == j) = some e := by
        rw [← heid]; exact find?_id_eq_some_of_mem h hel
      simp only [anchoredB, hfj, hep]
      exact hm
    rw [cnt, if_pos hpres]
    have hmapc : (childIds l i).map (cnt l (n + 1))
        = (childIds l i).map
            (fun j => (l.filter (fun d => reaches l n d.id j)).length) :=
      List.map_congr_left (fun j hj => ih (hanchChild j hj))
    rw [hmapc]
    have hpw : (childIds l i).Pairwise (fun j1 j2 =>
        ∀ d ∈ l, ¬(reaches l n d.id j1 = true ∧ reaches l n d.id j2 = true)) :=
      (childIds_pairwise_ne h i).imp_of_mem
        (fun hj1 hj2 hne d _ hcon =>
          reaches_child_unique h hm hj1 hj2 hne hcon.1 hcon.2)
    rw [sum_map_length_filter l (childIds l i) (fun j d => reaches l n d.id j) hpw]
    have hdisj : ∀ d ∈ l,
        ¬((d.id == i) = true
          ∧ ((childIds l i).any (fun j => reaches l n d.id j)) = true) := by
      intro d _ hcon
      have hdi : d.id = i := by simpa using hcon.1
      rcases List.any_eq_true.1 hcon.2 with ⟨j, hj, hrj⟩
      exact no_reach_child_of_anchored h hm hj (hdi ▸ hrj)
    have hsplit : l.filter (fun d => reaches l (n + 1) d.id i)
        = l.filter (fun d =>
            (d.id == i) || (childIds l i).any (fun j => reaches l n d.id j)) := by
      apply List.filter_congr
      intro d hd
      apply bool_eq_of_true_iff
      rw [Bool.or_eq_true]
      constructor
      · intro hr
        rcases reaches_succ_iff.1 hr with h1 | ⟨cd, y, hfd, hy, h2⟩
        · exact Or.inl (by simpa using h1)
        · have hcd : cd = d :=
            eq_of_mem_of_id_eq h (List.mem_of_find?_eq_some hfd) hd
              (by simpa using List.find?_some hfd)
          subst hcd
          right
          by_cases hyi : y = i
          · subst hyi
            apply List.any_eq_true.2
            refine ⟨cd.id, mem_childIds_iff.2 ⟨cd, hd, hy, rfl⟩, reaches_refl l n cd.id⟩
          · cases n with
            | zero => exact absurd (reaches_zero_iff.1 h2) hyi
            | succ n2 =>
              obtain ⟨j, hj, hrj⟩ := reach_through_child hyi h2
              apply List.any_eq_true.2
              exact ⟨j, hj, reaches_succ_iff.2 (Or.inr ⟨cd, y, hfd, hy, hrj⟩)⟩
      · intro hr
        rcases hr with h1 | h2
        · exact reaches_succ_iff.2 (Or.inl (by simpa using h1))
        · rcases List.any_eq_true.1 h2 with ⟨j, hj, hrj⟩
          obtain ⟨e, hel, hep, heid⟩ := mem_childIds_iff.1 hj
          have hfj : l.find? (fun c => c.id == j) = some e := by
            rw [← heid]; exact find?_id_eq_some_of_mem h hel
          have hfd : l.find? (fun c => c.id == d.id) = some d :=
            find?_id_eq_some_of_mem h hd
          by_cases hdj : d.id = j
          · have hde : d = e := eq_of_mem_of_id_eq h hd hel (hdj.trans heid.symm)
            apply reaches_succ_iff.2
            exact Or.inr ⟨d, i, hfd, by rw [hde, hep], reaches_refl l n i⟩
          · cases n with
            | zero => exact absurd (reaches_zero_iff.1 hrj) hdj
            | succ n2 =>
              rcases reaches_succ_iff.1 hrj with h3 | ⟨cd, y, hfd2, hy, h3⟩
              · exact absurd h3 hdj
              · have hcd : cd = d := by
                  rw [hfd] at hfd2
                  exact (Option.some.inj hfd2).symm
                subst hcd
                exact reaches_succ_iff.2
                  (Or.inr ⟨cd, y, hfd2, hy, reaches_ext hfj hep h3⟩)
    rw [hsplit,
      length_filter_or_disjoint (fun d => d.id == i)
        (fun d => (childIds l i).any (fun j => reaches l n d.id j)) l hdisj,
      length_filter_id h hfi]

theorem any_root_reaches_iff {l : List StoredComment} (h : distinctIds l) :
    ∀ (n d : Nat), ((rootIds l).any (fun r => reaches l n d r)) = true
      ↔ anchoredB l n d = true := by
  intro n
  induction n with
  | zero =>
    intro d
    constructor
    · intro ha
      rcases List.any_eq_true.1 ha with ⟨r, hr, hdr⟩
      have hdr2 : d = r := reaches_zero_iff.1 hdr
      subst hdr2
      obtain ⟨e, hel, hep, heid⟩ := mem_rootIds_iff.1 hr
      have hfd : l.find? (fun c => c.id == d) = some e := by
        rw [← heid]; exact find?_id_eq_some_of_mem h hel
      simp [anchoredB, hfd, hep]
    · intro hb
      simp only [anchoredB] at hb
      cases hfd : l.find? (fun c => c.id == d) with
      | none => rw [hfd] at hb; simp at hb
      | some c =>
        rw [hfd] at hb
        have hcp : c.parentId = none := by simpa using hb
        have hcid : c.id = d := by simpa using List.find?_some hfd
        apply List.any_eq_true.2
        refine ⟨d, ?_, reaches_refl l 0 d⟩
        exact mem_rootIds_iff.2 ⟨c, List.mem_of_find?_eq_some hfd, hcp, hcid⟩
  | succ n ih =>
    intro d
    cases hfd : l.find? (fun c => c.id == d) with
    | none =>
      constructor
      · intro ha
        rcases List.any_eq_true.1 ha with ⟨r, hr, hdr⟩
        rcases reaches_succ_iff.1 hdr with h1 | ⟨cd, y, hfd2, _, _⟩
        · subst h1
          obtain ⟨e, hel, hep, heid⟩ := mem_rootIds_iff.1 hr
          have : l.find? (fun c => c.id == d) = some e := by
            rw [← heid]; exact find?_id_eq_some_of_mem h hel
          rw [hfd] at this
          exact Option.noConfusion this
        · rw [hfd] at hfd2
          exact Option.noConfusion hfd2
      · intro hb
        simp only [anchoredB, hfd] at hb
        exact Bool.noConfusion hb
    | some c =>
      cases hcp : c.parentId with
      | none =>
        have hcid : c.id = d := by simpa using List.find?_some hfd
        constructor
        · intro _
          simp [anchoredB, hfd, hcp]
        · intro _
          apply List.any_eq_true.2
          refine ⟨d, ?_, reaches_refl l (n + 1) d⟩
          exact mem_rootIds_iff.2 ⟨c, List.mem_of_find?_eq_some hfd, hcp, hcid⟩
      | some p =>
        have hnd : ∀ r ∈ rootIds l, d ≠ r := by
          intro r hr hdr
          subst hdr
          obtain ⟨e, hel, hep, heid⟩ := mem_rootIds_iff.1 hr
          have hfd2 : l.find? (fun c => c.id == d) = some e := by
            rw [← heid]; exact find?_id_eq_some_of_mem h hel
          rw [hfd] at hfd2
          cases hfd2
          rw [hep] at hcp
          exact Option.noConfusion hcp
        constructor
        · intro ha
          rcases List.any_eq_true.1 ha with ⟨r, hr, hdr⟩
          rcases reaches_succ_iff.1 hdr with h1 | ⟨cd, y, hfd2, hy, h2⟩
          · exact absurd h1 (hnd r hr)
          · rw [hfd] at hfd2
            cases hfd2
            rw [hcp] at hy
            cases hy
            simp only [anchoredB, hfd, hcp]
            exact (ih p).1 (List.any_eq_true.2 ⟨r, hr, h2⟩)
        · intro hb
          simp only [anchoredB, hfd, hcp] at hb
          rcases List.any_eq_true.1 ((ih p).2 hb) with ⟨r, hr, hrp⟩
          apply List.any_eq_true.2
          exact ⟨r, hr, reaches_succ_iff.2 (Or.inr ⟨c, p, hfd, hcp, hrp⟩)⟩

/-- Claim C5 counterexample: with input comment 1 an orphan (parent 99
absent) and comment 2 a child of comment 1, the builder returns no
roots, so 0 comments are reachable, while 1 input comment (comment 2)
has its non-null parent present in the input — the claimed equality
fails. -/
theorem buildCommentTree_reachable_ne_parentPresent :
    reachableCount c5CounterInput = 0
    ∧ specParentPresentCount c5CounterInput = 1
    ∧ reachableCount c5CounterInput ≠ specParentPresentCount c5CounterInput := by
  decide

/-- Claim C5 (amended): for inputs with pairwise-distinct ids, the
number of comments reachable from the builder's roots (roots plus all
their descendants) equals the number of input comments whose whole
parent chain stays inside the input and terminates at a comment with
null parent (fuel `l.length` suffices for every terminating chain).
Orphans — and, beyond the original claim's wording, descendants of
orphans, whose own parent IS present — are excluded. -/
theorem buildCommentTree_reachable_eq_anchored (l : List StoredComment)
    (h : distinctIds l) :
    reachableCount l
      = (l.filter (fun c => anchoredB l l.length c.id)).length := by
  unfold reachableCount
  rw [buildCommentTree_roots]
  have hmapc : (rootIds l).map (nodeCount (buildCommentTree l).1 (l.length + 1))
      = (rootIds l).map
          (fun r => (l.filter (fun d => reaches l l.length d.id r)).length) := by
    apply List.map_congr_left
    intro r hr
    rw [nodeCount_eq_cnt]
    apply cnt_eq_card_reaches h
    obtain ⟨e, hel, hep, heid⟩ := mem_rootIds_iff.1 hr
    refine ⟨0, ?_⟩
    have hfr : l.find? (fun c => c.id == r) = some e := by
      rw [← heid]; exact find?_id_eq_some_of_mem h hel
    simp [anchoredB, hfr, hep]
  rw [hmapc]
  have hpw : (rootIds l).Pairwise (fun r1 r2 =>
      ∀ d ∈ l, ¬(reaches l l.length d.id r1 = true
        ∧ reaches l l.length d.id r2 = true)) :=
    (rootIds_pairwise_ne h).imp_of_mem
      (fun h1 h2 hne d _ hcon => reaches_root_unique h h1 h2 hne hcon.1 hcon.2)
  rw [sum_map_length_filter l (rootIds l) (fun r d => reaches l l.length d.id r) hpw]
  apply congrArg List.length
  apply List.filter_congr
  intro d _
  exact bool_eq_of_true_iff (any_root_reaches_iff h l.length d.id)

/-- Claim C5 witness: the amended equality at a concrete store holding
a root, its child, and an orphan. -/
theorem buildCommentTree_reachable_eq_anchored_witness :
    distinctIds c5WitnessInput
    ∧ reachableCount c5WitnessInput
      = (c5WitnessInput.filter
          (fun c => anchoredB c5WitnessInput c5WitnessInput.length c.id)).length :=
  ⟨by decide, buildCommentTree_reachable_eq_anchored c5WitnessInput (by decide)⟩

/-! ## Heap-level builder: frame lemmas -/

theorem heapGet_cons_self (k : Nat) (o : HObj) (es : Heap) :
    heapGet ((k, o) :: es) k = some o := by
  simp [heapGet, List.find?_cons]

theorem heapGet_cons_ne {k a : Nat} (hka : ¬k = a) (o : HObj) (es : Heap) :
    heapGet ((k, o) :: es) a = heapGet es a := by
  simp [heapGet, List.find?_cons, hka]

theorem heapSet_cons (k : Nat) (x : HObj) (es : Heap) (b : Nat) (o : HObj) :
    heapSet ((k, x) :: es) b o
      = (if k = b then (k, o) else (k, x)) :: heapSet es b o := by
  by_cases hkb : k = b <;> simp [heapSet, hkb]

theorem heapGet_heapSet_ne {h : Heap} {b a : Nat} {o : HObj} (hne : ¬b = a) :
    heapGet (heapSet h b o) a = heapGet h a := by
  induction h with
  | nil => rfl
  | cons e es ih =>
    obtain ⟨k, x⟩ := e
    rw [heapSet_cons]
    by_cases hkb : k = b
    · have hka : ¬k = a := fun hk => hne (hkb ▸ hk)
      rw [if_pos hkb, heapGet_cons_ne hka, heapGet_cons_ne hka, ih]
    · rw [if_neg hkb]
      by_cases hka : k = a
      · subst hka
        rw [heapGet_cons_self, heapGet_cons_self]
      · rw [heapGet_cons_ne hka, heapGet_cons_ne hka, ih]

theorem heapGet_none_of_ge {h : Heap} {a : Nat} (ha : freshAddr h ≤ a) :
    heapGet h a = none := by
  induction h with
  | nil => rfl
  | cons e es ih =>
    have hfold : (List.map (fun e => e.1) (e :: es)).foldr (fun x m => max x m) 0
        = max e.1 ((es.map (fun e => e.1)).foldr (fun x m => max x m) 0) := by
      simp
    unfold freshAddr at ha
    rw [hfold] at ha
    have h1 : ¬e.1 = a := by omega
    have h2 : freshAddr es ≤ a := by
      unfold freshAddr
      omega
    obtain ⟨k, o⟩ := e
    rw [heapGet_cons_ne h1]
    exact ih h2

theorem heapGet_append_of_isSome {h h2 : Heap} {a : Nat}
    (ha : (heapGet h a).isSome = true) : heapGet (h ++ h2) a = heapGet h a := by
  simp only [heapGet] at ha ⊢
  rw [List.find?_append]
  cases hf : h.find? (fun e => e.1 == a) with
  | none => rw [hf] at ha; simp at ha
  | some e => rfl

theorem heapGet_append_single_isSome {h : Heap} {b : Nat} {o : HObj} {a : Nat}
    (ha : (heapGet (h ++ [(b, o)]) a).isSome = true) :
    (heapGet h a).isSome = true ∨ a = b := by
  simp only [heapGet] at ha
  rw [List.find?_append] at ha
  cases hf : h.find? (fun e => e.1 == a) with
  | some e =>
    left
    simp [heapGet, hf]
  | none =>
    rw [hf] at ha
    by_cases hba : b = a
    · exact Or.inr hba.symm
    · rw [show ([(b, o)].find? (fun e => e.1 == a)) = none from by
        simp [List.find?_cons, hba]] at ha
      simp at ha

theorem heapInit_fold (n0 : Nat) (input : List Nat) :
    ∀ (h : Heap) (cmap : List (Nat × Nat)) (next : Nat),
      (∀ a, (heapGet h a).isSome = true → a < next) →
      n0 ≤ next →
      (∀ kv ∈ cmap, n0 ≤ kv.2) →
      (∀ a, (heapGet h a).isSome = true →
          heapGet (input.foldl heapInitStep (h, cmap, next)).1 a = heapGet h a)
      ∧ (∀ kv ∈ (input.foldl heapInitStep (h, cmap, next)).2.1, n0 ≤ kv.2) := by
  induction input with
  | nil =>
    intro h cmap next _ _ hcm
    exact ⟨fun a _ => rfl, hcm⟩
  | cons a input ih =>
    intro h cmap next hkeys hn0 hcm
    simp only [List.foldl_cons]
    cases hga : heapGet h a with
    | none =>
      have hstep : heapInitStep (h, cmap, next) a = (h, cmap, next) := by
        simp [heapInitStep, hga]
      rw [hstep]
      exact ih h cmap next hkeys hn0 hcm
    | some o =>
      have hstep : heapInitStep (h, cmap, next) a
          = (h ++ [(next, ⟨o.fields, some []⟩)],
             cmap ++ [(o.fields.id, next)], next + 1) := by
        simp [heapInitStep, hga]
      rw [hstep]
      have hkeys2 : ∀ b,
          (heapGet (h ++ [(next, (⟨o.fields, some []⟩ : HObj))]) b).isSome = true →
            b < next + 1 := by
        intro b hb
        rcases heapGet_append_single_isSome hb with hb | rfl
        · exact Nat.lt_succ_of_lt (hkeys b hb)
        · exact Nat.lt_succ_self _
      have hcm2 : ∀ kv ∈ cmap ++ [(o.fields.id, next)], n0 ≤ kv.2 := by
        intro kv hkv
        rcases List.mem_append.1 hkv with hkv | hkv
        · exact hcm kv hkv
        · simp only [List.mem_singleton] at hkv
          subst hkv
          exact hn0
      obtain ⟨hp, hv⟩ := ih _ _ _ hkeys2 (Nat.le_succ_of_le hn0) hcm2
      refine ⟨fun b hb => ?_, hv⟩
      rw [hp b (by rw [heapGet_append_of_isSome hb]; exact hb),
        heapGet_append_of_isSome hb]

theorem cmapGet_mem {cmap : List (Nat × Nat)} {x v : Nat}
    (h : (cmap.find? (fun e => e.1 == x)).map (fun e => e.2) = some v) :
    ∃ kv ∈ cmap, kv.2 = v := by
  cases hf : cmap.find? (fun e => e.1 == x) with
  | none => rw [hf] at h; exact Option.noConfusion h
  | some kv =>
    rw [hf] at h
    exact ⟨kv, List.mem_of_find?_eq_some hf, Option.some.inj h⟩

theorem heapLinkStep_cases (cmap : List (Nat × Nat)) (st : Heap × List Nat) (a : Nat) :
    heapLinkStep cmap st a = st
    ∨ (∃ pa o, heapLinkStep cmap st a = (heapSet st.1 pa o, st.2)
        ∧ ∃ kv ∈ cmap, kv.2 = pa)
    ∨ (∃ na, heapLinkStep cmap st a = (st.1, st.2 ++ [na])
        ∧ ∃ kv ∈ cmap, kv.2 = na) := by
  cases hga : heapGet st.1 a with
  | none => exact Or.inl (by simp [heapLinkStep, hga])
  | some o =>
    cases hpar : o.fields.parentId with
    | some p =>
      cases hcp : (cmap.find? (fun e => e.1 == p)).map (fun e => e.2) with
      | none => exact Or.inl (by simp [heapLinkStep, hga, hpar, hcp])
      | some pa =>
        cases hpn : heapGet st.1 pa with
        | none => exact Or.inl (by simp [heapLinkStep, hga, hpar, hcp, hpn])
        | some pnode =>
          cases hcn : (cmap.find? (fun e => e.1 == o.fields.id)).map (fun e => e.2) with
          | none => exact Or.inl (by simp [heapLinkStep, hga, hpar, hcp, hpn, hcn])
          | some na =>
            refine Or.inr (Or.inl ⟨pa,
              ⟨pnode.fields, some (pnode.replies.getD [] ++ [na])⟩, ?_, cmapGet_mem hcp⟩)
            simp [heapLinkStep, hga, hpar, hcp, hpn, hcn]
    | none =>
      cases hcn : (cmap.find? (fun e => e.1 == o.fields.id)).map (fun e => e.2) with
      | none => exact Or.inl (by simp [heapLinkStep, hga, hpar, hcn])
      | some na =>
        refine Or.inr (Or.inr ⟨na, ?_, cmapGet_mem hcn⟩)
        simp [heapLinkStep, hga, hpar, hcn]

theorem heapLink_fold (n0 : Nat) (cmap : List (Nat × Nat))
    (hc : ∀ kv ∈ cmap, n0 ≤ kv.2) (input : List Nat) :
    ∀ (st : Heap × List Nat),
      (∀ a, a < n0 →
        heapGet (input.foldl (heapLinkStep cmap) st).1 a = heapGet st.1 a)
      ∧ (∀ r ∈ (input.foldl (heapLinkStep cmap) st).2,
          r ∈ st.2 ∨ ∃ kv ∈ cmap, kv.2 = r) := by
  induction input with
  | nil =>
    intro st
    exact ⟨fun a _ => rfl, fun r hr => Or.inl hr⟩
  | cons a input ih =>
    intro st
    simp only [List.foldl_cons]
    rcases heapLinkStep_cases cmap st a with heq | ⟨pa, o, heq, kv, hkv, hpa⟩
      | ⟨na, heq, kv, hkv, hna⟩
    · rw [heq]
      exact ih st
    · rw [heq]
      obtain ⟨hp, hr⟩ := ih (heapSet st.1 pa o, st.2)
      refine ⟨fun b hb => ?_, hr⟩
      rw [hp b hb]
      apply heapGet_heapSet_ne
      have := hc kv hkv
      omega
    · rw [heq]
      obtain ⟨hp, hr⟩ := ih (st.1, st.2 ++ [na])
      refine ⟨hp, fun r hrr => ?_⟩
      rcases hr r hrr with hrr2 | hrr2
      · rcases List.mem_append.1 hrr2 with h3 | h3
        · exact Or.inl h3
        · simp only [List.mem_singleton] at h3
          refine Or.inr ⟨kv, hkv, ?_⟩
          rw [h3]
          exact hna
      · exact Or.inr hrr2

/-- Claim C10: the tree builder never mutates its input: every object
of the initial heap — in particular every input comment object — is
unchanged in the final heap, and the returned root nodes live at fresh
addresses (they are new objects, the shallow copies made by the first
pass), so the returned forest shares no object with the input. -/
theorem buildCommentTreeHeap_frame (h0 : Heap) (input : List Nat) :
    (∀ a, (heapGet h0 a).isSome = true →
        heapGet (buildCommentTreeHeap h0 input).1 a = heapGet h0 a)
    ∧ (∀ r ∈ (buildCommentTreeHeap h0 input).2.1, heapGet h0 r = none) := by
  have hkb : ∀ a, (heapGet h0 a).isSome = true → a < freshAddr h0 := by
    intro a ha
    by_contra hlt
    rw [heapGet_none_of_ge (by omega)] at ha
    simp at ha
  obtain ⟨hp1, hv1⟩ := heapInit_fold (freshAddr h0) input h0 [] (freshAddr h0)
    hkb (le_refl _) (by simp)
  obtain ⟨hp2, hr2⟩ := heapLink_fold (freshAddr h0)
    (input.foldl heapInitStep (h0, [], freshAddr h0)).2.1 hv1 input
    ((input.foldl heapInitStep (h0, [], freshAddr h0)).1, [])
  constructor
  · intro a ha
    show heapGet (input.foldl
      (heapLinkStep (input.foldl heapInitStep (h0, [], freshAddr h0)).2.1)
      ((input.foldl heapInitStep (h0, [], freshAddr h0)).1, [])).1 a = heapGet h0 a
    rw [hp2 a (hkb a ha)]
    exact hp1 a ha
  · intro r hr
    have hr' : r ∈ (input.foldl
        (heapLinkStep (input.foldl heapInitStep (h0, [], freshAddr h0)).2.1)
        ((input.foldl heapInitStep (h0, [], freshAddr h0)).1, [])).2 := hr
    rcases hr2 r hr' with h3 | ⟨kv, hkv, hkr⟩
    · simp at h3
    · have := hv1 kv hkv
      exact heapGet_none_of_ge (by omega)

/-- Claim C10 witness: a one-comment heap; the input object at address
0 is unchanged by the builder, and the returned root is a fresh
address. -/
theorem buildCommentTreeHeap_frame_witness :
    (heapGet c10WitnessHeap 0).isSome = true
    ∧ heapGet (buildCommentTreeHeap c10WitnessHeap [0]).1 0 = heapGet c10WitnessHeap 0 :=
  ⟨by decide, (buildCommentTreeHeap_frame c10WitnessHeap [0]).1 0 (by decide)⟩

end Leyr
